import Mathlib

/-!
Verification of the content ingestion and retrieval pipeline of the
chat-with-webpage repository (src/index.ts), shallowly embedded over
`List Char` (JS strings are sequences of code units; all inputs of
interest here are ASCII).  Each definition mirrors one function or
code fragment of the source; theorems settle the specification claims.
-/

/-- Whitespace predicate matching the JS `\s` class on the ASCII range
(space, tab, newline, carriage return, vertical tab, form feed). -/
def isWs (c : Char) : Bool :=
  c = ' ' || c = '\t' || c = '\n' || c = '\r' || c.toNat = 11 || c.toNat = 12

/-- Sentence-ending punctuation used by `chunkText`: `.`, `!`, `?`. -/
def isPunct (c : Char) : Bool :=
  c = '.' || c = '!' || c = '?'

theorem isPunct_not_isWs {c : Char} (h : isPunct c = true) : isWs c = false := by
  simp only [isPunct, Bool.or_eq_true, decide_eq_true_eq] at h
  rcases h with (h | h) | h <;> subst h <;> rfl

/-- Non-whitespace content of a character list (the residue that survives
whitespace normalization). -/
def nws (l : List Char) : List Char :=
  l.filter (fun c => !isWs c)

theorem nws_nil : nws [] = [] := rfl

theorem nws_append (a b : List Char) : nws (a ++ b) = nws a ++ nws b := by
  simp [nws, List.filter_append]

theorem nws_reverse (l : List Char) : nws l.reverse = (nws l).reverse := by
  simp [nws, List.filter_reverse]

theorem nws_cons_ws {c : Char} (h : isWs c = true) (l : List Char) :
    nws (c :: l) = nws l := by
  simp [nws, List.filter_cons, h]

theorem nws_cons_not_ws {c : Char} (h : isWs c = false) (l : List Char) :
    nws (c :: l) = c :: nws l := by
  simp [nws, List.filter_cons, h]

theorem nws_all_ws {l : List Char} (h : ∀ c ∈ l, isWs c = true) : nws l = [] := by
  induction l with
  | nil => rfl
  | cons a l ih =>
      rw [nws_cons_ws (h a (List.mem_cons_self a l))]
      exact ih fun c hc => h c (List.mem_cons_of_mem a hc)

/-- Left trim: drop the leading whitespace (one half of JS `String.trim`). -/
def trimL (l : List Char) : List Char := l.dropWhile isWs

/-- Right trim: drop the trailing whitespace. -/
def trimR (l : List Char) : List Char := (l.reverse.dropWhile isWs).reverse

/-- Model of JS `String.prototype.trim`. -/
def trim (l : List Char) : List Char := trimR (trimL l)

theorem dropWhile_append_all {p : Char → Bool} {a : List Char} (b : List Char)
    (h : ∀ c ∈ a, p c = true) : (a ++ b).dropWhile p = b.dropWhile p := by
  induction a with
  | nil => rfl
  | cons x a ih =>
      rw [List.cons_append, List.dropWhile_cons, if_pos (h x (List.mem_cons_self x a))]
      exact ih fun c hc => h c (List.mem_cons_of_mem x hc)

theorem dropWhile_append_not_all {p : Char → Bool} {a : List Char} (b : List Char)
    (h : ¬ ∀ c ∈ a, p c = true) : (a ++ b).dropWhile p = a.dropWhile p ++ b := by
  induction a with
  | nil => exact absurd (by simp) h
  | cons x a ih =>
      by_cases hx : p x = true
      · have hna : ¬ ∀ c ∈ a, p c = true := by
          intro hall
          exact h fun c hc => by
            rcases List.mem_cons.mp hc with rfl | hc
            · exact hx
            · exact hall c hc
        rw [List.cons_append, List.dropWhile_cons, if_pos hx, List.dropWhile_cons, if_pos hx]
        exact ih hna
      · rw [List.cons_append, List.dropWhile_cons, if_neg hx, List.dropWhile_cons, if_neg hx,
          List.cons_append]

theorem head?_dropWhile {p : Char → Bool} {l : List Char} {h : Char}
    (hh : (l.dropWhile p).head? = some h) : p h = false := by
  induction l with
  | nil => simp [List.dropWhile] at hh
  | cons x l ih =>
      rw [List.dropWhile_cons] at hh
      by_cases hx : p x = true
      · rw [if_pos hx] at hh; exact ih hh
      · rw [if_neg hx] at hh
        simp only [List.head?_cons, Option.some.injEq] at hh
        subst hh
        exact Bool.eq_false_iff.mpr hx

theorem dropWhile_eq_self_of_head {p : Char → Bool} {l : List Char} {h : Char}
    (hh : l.head? = some h) (hp : p h = false) : l.dropWhile p = l := by
  cases l with
  | nil => rfl
  | cons x l =>
      simp only [List.head?_cons, Option.some.injEq] at hh
      subst hh
      rw [List.dropWhile_cons, if_neg (by simp [hp])]

theorem nws_trimL (l : List Char) : nws (trimL l) = nws l := by
  conv_rhs => rw [← List.takeWhile_append_dropWhile (p := isWs) (l := l)]
  rw [nws_append, nws_all_ws (fun c hc => List.mem_takeWhile_imp hc), List.nil_append]
  rfl

theorem nws_trimR (l : List Char) : nws (trimR l) = nws l := by
  have h1 : nws (l.reverse.dropWhile isWs) = nws l.reverse := by
    conv_rhs => rw [← List.takeWhile_append_dropWhile (p := isWs) (l := l.reverse)]
    rw [nws_append, nws_all_ws (fun c hc => List.mem_takeWhile_imp hc), List.nil_append]
  rw [trimR, nws_reverse, h1, nws_reverse, List.reverse_reverse]

theorem nws_trim (l : List Char) : nws (trim l) = nws l := by
  rw [trim, nws_trimR, nws_trimL]

theorem trimR_prefix (l : List Char) : ∃ v, l = trimR l ++ v ∧ ∀ c ∈ v, isWs c = true := by
  refine ⟨(l.reverse.takeWhile isWs).reverse, ?_, ?_⟩
  · have := congrArg List.reverse (List.takeWhile_append_dropWhile (p := isWs) (l := l.reverse))
    rw [List.reverse_append, List.reverse_reverse] at this
    exact this.symm
  · intro c hc
    rw [List.mem_reverse] at hc
    exact List.mem_takeWhile_imp hc

theorem trimL_suffix (l : List Char) : ∃ u, l = u ++ trimL l ∧ ∀ c ∈ u, isWs c = true := by
  refine ⟨l.takeWhile isWs, (List.takeWhile_append_dropWhile (p := isWs) (l := l)).symm, ?_⟩
  exact fun c hc => List.mem_takeWhile_imp hc

theorem trim_decomp (l : List Char) :
    ∃ u v, l = u ++ trim l ++ v ∧ (∀ c ∈ u, isWs c = true) ∧ (∀ c ∈ v, isWs c = true) := by
  obtain ⟨u, hu, hwu⟩ := trimL_suffix l
  obtain ⟨v, hv, hwv⟩ := trimR_prefix (trimL l)
  refine ⟨u, v, ?_, hwu, hwv⟩
  rw [List.append_assoc]
  calc l = u ++ trimL l := hu
    _ = u ++ (trim l ++ v) := by rw [trim, ← hv]

theorem trimR_append_ws {w : List Char} (x : List Char) (h : ∀ c ∈ w, isWs c = true) :
    trimR (x ++ w) = trimR x := by
  unfold trimR
  rw [List.reverse_append, dropWhile_append_all _ (fun c hc => h c (List.mem_reverse.mp hc))]

theorem trim_append_ws {w : List Char} (l : List Char) (h : ∀ c ∈ w, isWs c = true) :
    trim (l ++ w) = trim l := by
  by_cases hall : ∀ c ∈ l, isWs c = true
  · have h1 : trimL (l ++ w) = [] := by
      unfold trimL
      rw [dropWhile_append_all _ hall, List.dropWhile_eq_nil_iff.mpr h]
    have h2 : trimL l = [] := by
      unfold trimL
      rw [List.dropWhile_eq_nil_iff.mpr hall]
    rw [trim, trim, h1, h2]
  · have h1 : trimL (l ++ w) = trimL l ++ w := dropWhile_append_not_all _ hall
    rw [trim, h1, trimR_append_ws _ h, trim]

theorem head?_trimL {l : List Char} {h : Char} (hh : (trimL l).head? = some h) :
    isWs h = false := head?_dropWhile hh

theorem getLast?_trimR {x : List Char} {h : Char} (hh : (trimR x).getLast? = some h) :
    isWs h = false := by
  rw [← List.head?_reverse, trimR, List.reverse_reverse] at hh
  exact head?_dropWhile hh

theorem head?_trimR {x : List Char} (hne : trimR x ≠ []) : (trimR x).head? = x.head? := by
  obtain ⟨v, hv, _⟩ := trimR_prefix x
  conv_rhs => rw [hv]
  rw [List.head?_append_of_ne_nil _ hne]

theorem head?_trim_not_ws {l : List Char} {h : Char} (hh : (trim l).head? = some h) :
    isWs h = false := by
  have hne : trim l ≠ [] := by intro he; rw [he] at hh; exact Option.noConfusion hh
  rw [trim, head?_trimR hne] at hh
  exact head?_trimL hh

theorem getLast?_trim_not_ws {l : List Char} {h : Char} (hh : (trim l).getLast? = some h) :
    isWs h = false := getLast?_trimR hh

theorem infix_of_parts {z l u v : List Char} (h : u ++ z ++ v = l) : z <:+: l := ⟨u, v, h⟩

theorem infix_app_right {z l : List Char} (x : List Char) (h : z <:+: l) : z <:+: l ++ x := by
  obtain ⟨u, v, rfl⟩ := h
  exact ⟨u, v ++ x, by simp [List.append_assoc]⟩

theorem infix_app_left {z l : List Char} (x : List Char) (h : z <:+: l) : z <:+: x ++ l := by
  obtain ⟨u, v, rfl⟩ := h
  exact ⟨x ++ u, v, by simp [List.append_assoc]⟩

theorem infix_self_right (z x : List Char) : z <:+: z ++ x := ⟨[], x, rfl⟩

theorem infix_nil_of {z : List Char} (h : z <:+: ([] : List Char)) : z = [] := by
  obtain ⟨u, v, huv⟩ := h
  have h2 := List.append_eq_nil.mp ((List.append_assoc u z v).symm.trans huv)
  exact (List.append_eq_nil.mp h2.2).1

theorem infix_rev {z l : List Char} (h : z <:+: l) : z.reverse <:+: l.reverse := by
  obtain ⟨u, v, rfl⟩ := h
  exact ⟨v.reverse, u.reverse, by simp⟩

theorem infix_dropWhile_aux (z v : List Char)
    (hh : ∀ c, z.head? = some c → isWs c = false) :
    ∀ u, z <:+: (u ++ z ++ v).dropWhile isWs := by
  intro u
  induction u with
  | nil =>
      cases z with
      | nil => exact ⟨[], (([] ++ [] ++ v).dropWhile isWs), by simp⟩
      | cons h t =>
          have hws : isWs h = false := hh h rfl
          rw [List.nil_append, List.cons_append, List.dropWhile_cons, if_neg (by simp [hws])]
          exact ⟨[], v, rfl⟩
  | cons c u2 ih =>
      rw [List.cons_append, List.cons_append, List.dropWhile_cons]
      by_cases hc : isWs c = true
      · rw [if_pos hc]
        exact ih
      · rw [if_neg hc]
        exact infix_of_parts (z := z) (u := c :: u2) (v := v) (by simp [List.append_assoc])

theorem infix_trimL_of_head {z l : List Char} (h : z <:+: l)
    (hh : ∀ c, z.head? = some c → isWs c = false) : z <:+: trimL l := by
  obtain ⟨u, v, rfl⟩ := h
  exact infix_dropWhile_aux z v hh u

theorem infix_trimR_of_last {z x : List Char} (h : z <:+: x)
    (hl : ∀ c, z.getLast? = some c → isWs c = false) : z <:+: trimR x := by
  have h1 : z.reverse <:+: x.reverse := infix_rev h
  have hh : ∀ c, z.reverse.head? = some c → isWs c = false := by
    intro c hc
    rw [List.head?_reverse] at hc
    exact hl c hc
  obtain ⟨u, v, huv⟩ := h1
  have h2 : z.reverse <:+: x.reverse.dropWhile isWs := by
    have h0 := infix_dropWhile_aux z.reverse v hh u
    rwa [huv] at h0
  have h3 := infix_rev h2
  rw [List.reverse_reverse] at h3
  exact h3

theorem infix_trim_of_ends {z l : List Char} (h : z <:+: l)
    (hh : ∀ c, z.head? = some c → isWs c = false)
    (hl : ∀ c, z.getLast? = some c → isWs c = false) : z <:+: trim l :=
  infix_trimR_of_last (infix_trimL_of_head h hh) hl

theorem trim_trim (l : List Char) : trim (trim l) = trim l := by
  have h1 : trimL (trim l) = trim l := by
    cases he : (trim l).head? with
    | none =>
        rw [List.head?_eq_none_iff] at he
        rw [he]; rfl
    | some h => exact dropWhile_eq_self_of_head he (head?_trim_not_ws he)
  have h2 : trimR (trim l) = trim l := by
    unfold trimR
    cases he : (trim l).reverse.head? with
    | none =>
        rw [List.head?_eq_none_iff, List.reverse_eq_nil_iff] at he
        rw [he]; rfl
    | some h =>
        have hlast : (trim l).getLast? = some h := by rw [← List.head?_reverse]; exact he
        rw [dropWhile_eq_self_of_head he (getLast?_trim_not_ws hlast), List.reverse_reverse]
  rw [trim, h1, h2]

/-- Head-of-list whitespace test: the JS split pattern `(?<=[.!?])\s+`
requires at least one whitespace character right after the punctuation. -/
def headWs : List Char → Bool
  | [] => false
  | c :: _ => isWs c

/-- Model of `paragraph.split(/(?<=[.!?])\s+/)` from `chunkText`:
`acc` is the current segment reversed; `skip` is true while the
whitespace run following a split point is being consumed. -/
def ssAux : List Char → List Char → Bool → List (List Char)
  | [], acc, _ => [acc.reverse]
  | c :: rest, acc, skip =>
      if skip && isWs c then ssAux rest acc true
      else if isPunct c && headWs rest then (c :: acc).reverse :: ssAux rest [] true
      else ssAux rest (c :: acc) false

/-- Sentence decomposition of one paragraph, as in `chunkText`. -/
def splitSentences (p : List Char) : List (List Char) := ssAux p [] false

/-- Model of `text.split(/\n\s*\n/)` from `chunkText`, as a single
left-to-right pass.  `acc` is the current segment reversed; while
`inRun` is true we are inside the whitespace run that follows a `'\n'`;
`since` holds (reversed) the run characters seen after the run's last
`'\n'` and `sawNl` records whether the run contains such a second
`'\n'` (the greedy `\s*` backtracks to the last `'\n'` of the run, so a
separator match consumes the run exactly up to that character). -/
def spAux : List Char → List Char → List Char → Bool → Bool → List (List Char)
  | [], acc, _, _, false => [acc.reverse]
  | [], acc, since, true, true => [acc.reverse, since.reverse]
  | [], acc, since, false, true => [(since ++ '\n' :: acc).reverse]
  | c :: rest, acc, _, _, false =>
      if c = '\n' then spAux rest acc [] false true
      else spAux rest (c :: acc) [] false false
  | c :: rest, acc, since, sawNl, true =>
      if c = '\n' then spAux rest acc [] true true
      else if isWs c then spAux rest acc (c :: since) sawNl true
      else if sawNl then acc.reverse :: spAux rest (c :: since) [] false false
      else spAux rest (c :: (since ++ '\n' :: acc)) [] false false

/-- Paragraph decomposition of the input text, as in `chunkText`. -/
def splitParas (t : List Char) : List (List Char) := spAux t [] [] false false

/-- Running state of `chunkText`: the JS locals `chunks`, `currentChunk`
and `currentSize` (the source tracks the size separately from the chunk
string, since inserted joiners are not counted). -/
structure ChunkSt where
  chunks : List (List Char)
  cur : List Char
  size : Nat
deriving DecidableEq, Repr

/-- The `chunks.push(currentChunk.trim()); currentChunk = ''; currentSize = 0`
sequence of `chunkText`. -/
def flushChunk (st : ChunkSt) : ChunkSt :=
  ⟨st.chunks ++ [trim st.cur], [], 0⟩

/-- Body of the sentence loop of `chunkText`. -/
def procSentence (m : Nat) (st : ChunkSt) (s : List Char) : ChunkSt :=
  let st1 := if st.size + s.length > m ∧ st.cur ≠ [] then flushChunk st else st
  ⟨st1.chunks, st1.cur ++ (if st1.cur = [] then [] else [' ']) ++ s, st1.size + s.length⟩

/-- Body of the paragraph loop of `chunkText`: the paragraph-level size
check, the sentence loop, then the paragraph separator. -/
def procPara (m : Nat) (st : ChunkSt) (p : List Char) : ChunkSt :=
  let st1 := if st.size + p.length > m ∧ st.cur ≠ [] then flushChunk st else st
  let st2 := (splitSentences p).foldl (procSentence m) st1
  if st2.cur = [] then st2 else ⟨st2.chunks, st2.cur ++ ['\n', '\n'], st2.size + 2⟩

/-- Model of `chunkText(text, maxChunkSize)` from src/index.ts. -/
def chunkText (t : List Char) (m : Nat) : List (List Char) :=
  let st := (splitParas t).foldl (procPara m) ⟨[], [], 0⟩
  if trim st.cur = [] then st.chunks else st.chunks ++ [trim st.cur]

theorem nws_join_ssAux (input : List Char) :
    ∀ acc skip, nws (List.flatten (ssAux input acc skip)) = (nws acc).reverse ++ nws input := by
  induction input with
  | nil =>
      intro acc skip
      simp [ssAux, nws_reverse, nws]
  | cons c rest ih =>
      intro acc skip
      by_cases h1 : (skip && isWs c) = true
      · have hc : isWs c = true := (Bool.and_eq_true _ _ |>.mp h1).2
        simp only [ssAux, if_pos h1]
        rw [ih acc true, nws_cons_ws hc]
      · by_cases h2 : (isPunct c && headWs rest) = true
        · have hc : isWs c = false := isPunct_not_isWs (Bool.and_eq_true _ _ |>.mp h2).1
          simp only [ssAux, if_neg h1, if_pos h2, List.flatten_cons]
          rw [nws_append, ih [] true, nws_reverse, nws_cons_not_ws hc, nws_cons_not_ws hc]
          simp [nws]
        · simp only [ssAux, if_neg h1, if_neg h2]
          rw [ih (c :: acc) false]
          by_cases hc : isWs c = true
          · rw [nws_cons_ws hc, nws_cons_ws hc]
          · have hc2 : isWs c = false := by simpa using hc
            rw [nws_cons_not_ws hc2, nws_cons_not_ws hc2]
            simp [List.append_assoc]

theorem nws_join_splitSentences (p : List Char) :
    nws (List.flatten (splitSentences p)) = nws p := by
  have h := nws_join_ssAux p [] false
  simpa [nws] using h

theorem nws_join_spAux (input : List Char) :
    ∀ acc since sawNl inRun, (∀ c ∈ since, isWs c = true) →
    nws (List.flatten (spAux input acc since sawNl inRun)) = (nws acc).reverse ++ nws input := by
  induction input with
  | nil =>
      intro acc since sawNl inRun hsince
      cases inRun with
      | false => simp [spAux, nws_reverse, nws_nil]
      | true =>
          cases sawNl with
          | true =>
              simp [spAux, nws_append, nws_reverse, nws_all_ws hsince, nws_nil]
          | false =>
              simp [spAux, nws_append, nws_reverse, nws_all_ws hsince,
                nws_cons_ws (show isWs '\n' = true from rfl), nws_nil]
  | cons c rest ih =>
      intro acc since sawNl inRun hsince
      cases inRun with
      | false =>
          by_cases hc : c = '\n'
          · subst hc
            simp only [spAux, if_true, if_pos rfl]
            rw [ih acc [] false true (by simp),
              nws_cons_ws (show isWs '\n' = true from rfl)]
          · simp only [spAux, if_neg hc]
            rw [ih (c :: acc) [] false false (by simp)]
            by_cases hw : isWs c = true
            · rw [nws_cons_ws hw, nws_cons_ws hw]
            · have hw2 : isWs c = false := by simpa using hw
              rw [nws_cons_not_ws hw2, nws_cons_not_ws hw2]
              simp [List.append_assoc]
      | true =>
          by_cases hc : c = '\n'
          · subst hc
            simp only [spAux, if_true, if_pos rfl]
            rw [ih acc [] true true (by simp),
              nws_cons_ws (show isWs '\n' = true from rfl)]
          · by_cases hw : isWs c = true
            · simp only [spAux, if_neg hc, if_pos hw]
              rw [ih acc (c :: since) sawNl true
                (fun d hd => by
                  rcases List.mem_cons.mp hd with rfl | hd
                  · exact hw
                  · exact hsince d hd),
                nws_cons_ws hw]
            · have hw2 : isWs c = false := by simpa using hw
              cases sawNl with
              | true =>
                  simp only [spAux, if_neg hc, if_neg (by simp [hw2] : ¬ isWs c = true),
                    if_true, if_pos rfl, List.flatten_cons]
                  rw [nws_append, ih (c :: since) [] false false (by simp),
                    nws_cons_not_ws hw2, nws_all_ws hsince, nws_cons_not_ws hw2]
                  simp [nws_reverse, List.append_assoc]
              | false =>
                  simp only [spAux, if_neg hc, if_neg (by simp [hw2] : ¬ isWs c = true),
                    if_neg (Bool.false_ne_true)]
                  rw [ih (c :: (since ++ '\n' :: acc)) [] false false (by simp)]
                  rw [nws_cons_not_ws hw2, nws_append,
                    nws_cons_ws (show isWs '\n' = true from rfl), nws_all_ws hsince,
                    nws_cons_not_ws hw2]
                  simp [List.append_assoc]

theorem nws_join_splitParas (t : List Char) :
    nws (List.flatten (splitParas t)) = nws t := by
  have h := nws_join_spAux t [] [] false false (by simp)
  simpa [nws] using h

/-- Non-whitespace content held by a chunker state (flushed chunks plus
the chunk under construction). -/
def nwsSt (st : ChunkSt) : List Char := nws (List.flatten st.chunks) ++ nws st.cur

theorem nwsSt_flush (st : ChunkSt) : nwsSt (flushChunk st) = nwsSt st := by
  unfold nwsSt flushChunk
  simp only [List.flatten_append, List.flatten_cons, List.flatten_nil, List.append_nil,
    nws_append, nws_trim, nws_nil, List.append_assoc]

theorem nwsSt_procSentence (m : Nat) (st : ChunkSt) (s : List Char) :
    nwsSt (procSentence m st s) = nwsSt st ++ nws s := by
  unfold procSentence
  by_cases h : st.size + s.length > m ∧ st.cur ≠ []
  · rw [if_pos h]
    have h1 : nwsSt (flushChunk st) = nwsSt st := nwsSt_flush st
    rw [← h1]
    show nws (List.flatten (flushChunk st).chunks) ++
        nws (([] : List Char) ++ (if ([] : List Char) = [] then ([] : List Char) else [' ']) ++ s) =
      nwsSt (flushChunk st) ++ nws s
    rw [if_pos rfl, List.nil_append, List.nil_append, nwsSt]
    show _ ++ nws s = _ ++ nws ([] : List Char) ++ nws s
    rw [nws_nil, List.append_nil]
  · rw [if_neg h]
    show nws (List.flatten st.chunks) ++
        nws (st.cur ++ (if st.cur = [] then [] else [' ']) ++ s) = nwsSt st ++ nws s
    by_cases hc : st.cur = []
    · rw [if_pos hc, hc, List.nil_append, List.nil_append, nwsSt, hc]
      rw [nws_nil, List.append_nil]
    · rw [if_neg hc, nws_append, nws_append, show nws [' '] = [] from rfl,
        List.append_nil]
      simp only [nwsSt, List.append_assoc]

theorem nwsSt_foldSentences (m : Nat) (ss : List (List Char)) :
    ∀ st : ChunkSt, nwsSt (ss.foldl (procSentence m) st) = nwsSt st ++ nws (List.flatten ss) := by
  induction ss with
  | nil => intro st; simp [nws]
  | cons s ss ih =>
      intro st
      rw [List.foldl_cons, ih (procSentence m st s), nwsSt_procSentence,
        List.flatten_cons, nws_append, List.append_assoc]

theorem nwsSt_procPara (m : Nat) (st : ChunkSt) (p : List Char) :
    nwsSt (procPara m st p) = nwsSt st ++ nws p := by
  unfold procPara
  have h2 : ∀ st1 : ChunkSt, nwsSt ((splitSentences p).foldl (procSentence m) st1) =
      nwsSt st1 ++ nws p := by
    intro st1
    rw [nwsSt_foldSentences, nws_join_splitSentences]
  by_cases h : st.size + p.length > m ∧ st.cur ≠ []
  · rw [if_pos h]
    set st2 := (splitSentences p).foldl (procSentence m) (flushChunk st) with hst2
    have h3 : nwsSt st2 = nwsSt st ++ nws p := by rw [hst2, h2, nwsSt_flush]
    by_cases hc : st2.cur = []
    · rw [if_pos hc]; exact h3
    · rw [if_neg hc]
      simp only [nwsSt, nws_append] at h3 ⊢
      rw [show nws ['\n', '\n'] = [] from rfl, List.append_nil]
      exact h3
  · rw [if_neg h]
    set st2 := (splitSentences p).foldl (procSentence m) st with hst2
    have h3 : nwsSt st2 = nwsSt st ++ nws p := by rw [hst2, h2]
    by_cases hc : st2.cur = []
    · rw [if_pos hc]; exact h3
    · rw [if_neg hc]
      simp only [nwsSt, nws_append] at h3 ⊢
      rw [show nws ['\n', '\n'] = [] from rfl, List.append_nil]
      exact h3

theorem nwsSt_foldParas (m : Nat) (ps : List (List Char)) :
    ∀ st : ChunkSt, nwsSt (ps.foldl (procPara m) st) = nwsSt st ++ nws (List.flatten ps) := by
  induction ps with
  | nil => intro st; simp [nws]
  | cons p ps ih =>
      intro st
      rw [List.foldl_cons, ih (procPara m st p), nwsSt_procPara,
        List.flatten_cons, nws_append, List.append_assoc]

/-- C2: concatenating the chunks produced by `chunkText` in order, with all
whitespace (which is where the inserted joining spaces and paragraph
separators live) erased, reproduces the input text with its whitespace
erased: the non-whitespace content is preserved exactly, so the original
text is reproduced up to whitespace normalization only.  This holds for
every maximum chunk size, in particular every positive one. -/
theorem c2_chunk_concat_preserves_content (t : List Char) (m : Nat) :
    nws (List.flatten (chunkText t m)) = nws t := by
  unfold chunkText
  set st := (splitParas t).foldl (procPara m) ⟨[], [], 0⟩ with hst
  have h1 : nwsSt st = nws t := by
    rw [hst, nwsSt_foldParas, nws_join_splitParas]
    simp [nwsSt, nws]
  have h3 : nws (List.flatten st.chunks) ++ nws st.cur = nws t := h1
  by_cases hc : trim st.cur = []
  · rw [if_pos hc]
    have h2 : nws st.cur = [] := by rw [← nws_trim, hc, nws_nil]
    rw [h2, List.append_nil] at h3
    exact h3
  · rw [if_neg hc]
    rw [List.flatten_append, nws_append, List.flatten_cons, List.flatten_nil,
      List.append_nil, nws_trim]
    exact h3

theorem foldl_preserve {α : Type} {P : ChunkSt → Prop} {f : ChunkSt → α → ChunkSt}
    (hf : ∀ st a, P st → P (f st a)) :
    ∀ (l : List α) (st : ChunkSt), P st → P (l.foldl f st) := by
  intro l
  induction l with
  | nil => intro st h; exact h
  | cons a l ih => intro st h; exact ih (f st a) (hf st a h)

/-- Invariant of the chunker: the size accumulator is zero whenever the
chunk under construction is empty (`currentChunk = ''` implies
`currentSize = 0` throughout `chunkText`). -/
def Inv0 (st : ChunkSt) : Prop := st.cur = [] → st.size = 0

theorem inv0_flush (st : ChunkSt) : Inv0 (flushChunk st) := fun _ => rfl

theorem inv0_procSentence (m : Nat) (st : ChunkSt) (s : List Char) (h : Inv0 st) :
    Inv0 (procSentence m st s) := by
  unfold procSentence
  by_cases hf : st.size + s.length > m ∧ st.cur ≠ []
  · rw [if_pos hf]
    intro hcur
    have h2 := List.append_eq_nil.mp hcur
    show (flushChunk st).size + s.length = 0
    rw [h2.2]
    rfl
  · rw [if_neg hf]
    intro hcur
    have h2 := List.append_eq_nil.mp hcur
    have h3 := List.append_eq_nil.mp h2.1
    show st.size + s.length = 0
    rw [h2.2, h h3.1]
    rfl

theorem inv0_procPara (m : Nat) (st : ChunkSt) (p : List Char) (h : Inv0 st) :
    Inv0 (procPara m st p) := by
  unfold procPara
  have h1 : Inv0 (if st.size + p.length > m ∧ st.cur ≠ [] then flushChunk st else st) := by
    by_cases hf : st.size + p.length > m ∧ st.cur ≠ []
    · rw [if_pos hf]; exact inv0_flush st
    · rw [if_neg hf]; exact h
  have h2 : Inv0 ((splitSentences p).foldl (procSentence m)
      (if st.size + p.length > m ∧ st.cur ≠ [] then flushChunk st else st)) :=
    foldl_preserve (fun st s hs => inv0_procSentence m st s hs) _ _ h1
  by_cases hc : ((splitSentences p).foldl (procSentence m)
      (if st.size + p.length > m ∧ st.cur ≠ [] then flushChunk st else st)).cur = []
  · rw [if_pos hc]; exact h2
  · rw [if_neg hc]
    intro hcur
    have h3 := List.append_eq_nil.mp hcur
    exact absurd h3.2 (by simp)

/-- The list `z` already appears inside the chunker state: as an infix of
the chunk under construction or of an already emitted chunk. -/
def SeenIn (z : List Char) (st : ChunkSt) : Prop :=
  z <:+: st.cur ∨ ∃ c ∈ st.chunks, z <:+: c

theorem seen_flush {z : List Char}
    (hzh : ∀ c, z.head? = some c → isWs c = false)
    (hzl : ∀ c, z.getLast? = some c → isWs c = false)
    (st : ChunkSt) (h : SeenIn z st) : SeenIn z (flushChunk st) := by
  rcases h with h | ⟨c, hc, hzc⟩
  · exact Or.inr ⟨trim st.cur, by simp [flushChunk], infix_trim_of_ends h hzh hzl⟩
  · exact Or.inr ⟨c, by simp [flushChunk, hc], hzc⟩

theorem seen_mono {z : List Char} {st : ChunkSt} (h : SeenIn z st) (st2 : ChunkSt)
    (hchunks : st2.chunks = st.chunks) (hcur : ∃ x, st2.cur = st.cur ++ x) :
    SeenIn z st2 := by
  obtain ⟨x, hx⟩ := hcur
  rcases h with h | hc
  · exact Or.inl (hx ▸ infix_app_right x h)
  · exact Or.inr (hchunks ▸ hc)

theorem seen_procSentence {z : List Char}
    (hzh : ∀ c, z.head? = some c → isWs c = false)
    (hzl : ∀ c, z.getLast? = some c → isWs c = false)
    (m : Nat) (st : ChunkSt) (s : List Char) (h : SeenIn z st) :
    SeenIn z (procSentence m st s) := by
  unfold procSentence
  by_cases hf : st.size + s.length > m ∧ st.cur ≠ []
  · rw [if_pos hf]
    exact seen_mono (seen_flush hzh hzl st h) _ rfl ⟨_, List.append_assoc _ _ _⟩
  · rw [if_neg hf]
    exact seen_mono h _ rfl ⟨_, List.append_assoc _ _ _⟩

theorem seen_procPara {z : List Char}
    (hzh : ∀ c, z.head? = some c → isWs c = false)
    (hzl : ∀ c, z.getLast? = some c → isWs c = false)
    (m : Nat) (st : ChunkSt) (p : List Char) (h : SeenIn z st) :
    SeenIn z (procPara m st p) := by
  unfold procPara
  have h1 : SeenIn z (if st.size + p.length > m ∧ st.cur ≠ [] then flushChunk st else st) := by
    by_cases hf : st.size + p.length > m ∧ st.cur ≠ []
    · rw [if_pos hf]; exact seen_flush hzh hzl st h
    · rw [if_neg hf]; exact h
  have h2 : SeenIn z ((splitSentences p).foldl (procSentence m)
      (if st.size + p.length > m ∧ st.cur ≠ [] then flushChunk st else st)) :=
    foldl_preserve (fun st s hs => seen_procSentence hzh hzl m st s hs) _ _ h1
  by_cases hc : ((splitSentences p).foldl (procSentence m)
      (if st.size + p.length > m ∧ st.cur ≠ [] then flushChunk st else st)).cur = []
  · rw [if_pos hc]; exact h2
  · rw [if_neg hc]
    exact seen_mono h2 _ rfl ⟨['\n', '\n'], rfl⟩

theorem seen_estab_sentence (m : Nat) (st : ChunkSt) (s : List Char) :
    SeenIn (trim s) (procSentence m st s) := by
  unfold procSentence
  apply Or.inl
  obtain ⟨u, v, huv, _, _⟩ := trim_decomp s
  have h1 : trim s <:+: s := infix_of_parts huv.symm
  exact infix_app_left _ h1

theorem seen_foldSentences {s : List Char} (m : Nat) {ss : List (List Char)}
    (hs : s ∈ ss) (st : ChunkSt) :
    SeenIn (trim s) (ss.foldl (procSentence m) st) := by
  obtain ⟨l1, l2, hq⟩ := List.append_of_mem hs
  rw [hq, List.foldl_append, List.foldl_cons]
  exact foldl_preserve
    (fun st a h => seen_procSentence (fun c hc => head?_trim_not_ws hc)
      (fun c hc => getLast?_trim_not_ws hc) m st a h)
    l2 _ (seen_estab_sentence m _ s)

theorem seen_procPara_estab {s p : List Char} (m : Nat) (st : ChunkSt)
    (hs : s ∈ splitSentences p) : SeenIn (trim s) (procPara m st p) := by
  unfold procPara
  have h2 : SeenIn (trim s) ((splitSentences p).foldl (procSentence m)
      (if st.size + p.length > m ∧ st.cur ≠ [] then flushChunk st else st)) :=
    seen_foldSentences m hs _
  by_cases hc : ((splitSentences p).foldl (procSentence m)
      (if st.size + p.length > m ∧ st.cur ≠ [] then flushChunk st else st)).cur = []
  · rw [if_pos hc]; exact h2
  · rw [if_neg hc]
    exact seen_mono h2 _ rfl ⟨['\n', '\n'], rfl⟩

/-- After an oversized sentence `s` has been consumed, either its trim has
already been emitted as a chunk of its own, or the chunk under construction
is exactly `s` followed by inserted whitespace, with the size accumulator
above the limit, so whatever comes next flushes it on its own. -/
def Alone (m : Nat) (s : List Char) (st : ChunkSt) : Prop :=
  trim s ∈ st.chunks ∨
    ∃ w, (∀ c ∈ w, isWs c = true) ∧ st.cur = s ++ w ∧ st.size > m

theorem alone_procSentence {m : Nat} {s : List Char} (hs0 : s ≠ [])
    (st : ChunkSt) (s2 : List Char) (h : Alone m s st) :
    Alone m s (procSentence m st s2) := by
  rcases h with h | ⟨w, hw, hcur, hsz⟩
  · unfold procSentence
    by_cases hf : st.size + s2.length > m ∧ st.cur ≠ []
    · rw [if_pos hf]
      exact Or.inl (List.mem_append_left _ h)
    · rw [if_neg hf]
      exact Or.inl h
  · have hflush : st.size + s2.length > m ∧ st.cur ≠ [] := by
      refine ⟨Nat.lt_of_lt_of_le hsz (Nat.le_add_right _ _), ?_⟩
      rw [hcur]
      exact fun he => hs0 (List.append_eq_nil.mp he).1
    unfold procSentence
    rw [if_pos hflush]
    apply Or.inl
    show trim s ∈ st.chunks ++ [trim st.cur]
    rw [hcur, trim_append_ws s hw]
    exact List.mem_append_right _ (List.mem_singleton.mpr rfl)

theorem alone_paraEnd {m : Nat} {s : List Char} (st2 : ChunkSt) (h : Alone m s st2) :
    Alone m s (if st2.cur = [] then st2
      else ⟨st2.chunks, st2.cur ++ ['\n', '\n'], st2.size + 2⟩) := by
  by_cases hc : st2.cur = []
  · rw [if_pos hc]; exact h
  · rw [if_neg hc]
    rcases h with h | ⟨w, hw, hcur, hsz⟩
    · exact Or.inl h
    · refine Or.inr ⟨w ++ ['\n', '\n'], ?_, ?_, Nat.lt_of_lt_of_le hsz (Nat.le_add_right _ 2)⟩
      · intro c hc2
        rcases List.mem_append.mp hc2 with hc2 | hc2
        · exact hw c hc2
        · rcases List.mem_cons.mp hc2 with rfl | hc2
          · rfl
          · rcases List.mem_cons.mp hc2 with rfl | hc2
            · rfl
            · exact absurd hc2 (List.not_mem_nil c)
      · show st2.cur ++ ['\n', '\n'] = s ++ (w ++ ['\n', '\n'])
        rw [hcur, List.append_assoc]

theorem alone_procPara {m : Nat} {s : List Char} (hs0 : s ≠ [])
    (st : ChunkSt) (p : List Char) (h : Alone m s st) :
    Alone m s (procPara m st p) := by
  unfold procPara
  have h1 : Alone m s (if st.size + p.length > m ∧ st.cur ≠ [] then flushChunk st else st) := by
    rcases h with h | ⟨w, hw, hcur, hsz⟩
    · by_cases hf : st.size + p.length > m ∧ st.cur ≠ []
      · rw [if_pos hf]
        exact Or.inl (List.mem_append_left _ h)
      · rw [if_neg hf]
        exact Or.inl h
    · have hflush : st.size + p.length > m ∧ st.cur ≠ [] := by
        refine ⟨Nat.lt_of_lt_of_le hsz (Nat.le_add_right _ _), ?_⟩
        rw [hcur]
        exact fun he => hs0 (List.append_eq_nil.mp he).1
      rw [if_pos hflush]
      apply Or.inl
      show trim s ∈ st.chunks ++ [trim st.cur]
      rw [hcur, trim_append_ws s hw]
      exact List.mem_append_right _ (List.mem_singleton.mpr rfl)
  have h2 : Alone m s ((splitSentences p).foldl (procSentence m)
      (if st.size + p.length > m ∧ st.cur ≠ [] then flushChunk st else st)) :=
    foldl_preserve (fun st a ha => alone_procSentence hs0 st a ha) _ _ h1
  exact alone_paraEnd _ h2

theorem alone_estab {m : Nat} {s : List Char} (st : ChunkSt)
    (hlen : s.length > m) (hinv : Inv0 st) : Alone m s (procSentence m st s) := by
  unfold procSentence
  by_cases hf : st.size + s.length > m ∧ st.cur ≠ []
  · rw [if_pos hf]
    refine Or.inr ⟨[], by simp, ?_, ?_⟩
    · show (flushChunk st).cur ++
        (if (flushChunk st).cur = [] then [] else [' ']) ++ s = s ++ []
      simp [flushChunk]
    · show m < (flushChunk st).size + s.length
      simpa [flushChunk] using hlen
  · rw [if_neg hf]
    have hcur : st.cur = [] := by
      by_contra hne2
      exact hf ⟨Nat.lt_of_lt_of_le hlen (Nat.le_add_left _ _), hne2⟩
    refine Or.inr ⟨[], by simp, ?_, ?_⟩
    · show st.cur ++ (if st.cur = [] then [] else [' ']) ++ s = s ++ []
      simp [hcur]
    · show m < st.size + s.length
      rw [hinv hcur]
      simpa using hlen

theorem alone_foldSentences {m : Nat} {s : List Char} {ss : List (List Char)}
    (hlen : s.length > m) (hs0 : s ≠ []) (hs : s ∈ ss) (st : ChunkSt)
    (hinv : Inv0 st) : Alone m s (ss.foldl (procSentence m) st) := by
  obtain ⟨l1, l2, hq⟩ := List.append_of_mem hs
  rw [hq, List.foldl_append, List.foldl_cons]
  have hinv2 : Inv0 (l1.foldl (procSentence m) st) :=
    foldl_preserve (fun st a ha => inv0_procSentence m st a ha) l1 st hinv
  exact foldl_preserve (fun st a ha => alone_procSentence hs0 st a ha) l2 _
    (alone_estab _ hlen hinv2)

theorem alone_procPara_estab {m : Nat} {s p : List Char}
    (hlen : s.length > m) (hs0 : s ≠ []) (hs : s ∈ splitSentences p)
    (st : ChunkSt) (hinv : Inv0 st) : Alone m s (procPara m st p) := by
  unfold procPara
  have hinv1 : Inv0 (if st.size + p.length > m ∧ st.cur ≠ [] then flushChunk st else st) := by
    by_cases hf : st.size + p.length > m ∧ st.cur ≠ []
    · rw [if_pos hf]; exact inv0_flush st
    · rw [if_neg hf]; exact hinv
  have h2 : Alone m s ((splitSentences p).foldl (procSentence m)
      (if st.size + p.length > m ∧ st.cur ≠ [] then flushChunk st else st)) :=
    alone_foldSentences hlen hs0 hs _ hinv1
  exact alone_paraEnd _ h2

/-- C3: the structure-aware chunker never splits a sentence across two
chunks.  For every paragraph `p` of the text and every sentence `s` of `p`
(the decompositions used by `chunkText`) whose trimmed form is non-empty,
some single chunk of `chunkText t m` contains `trim s` contiguously; and a
sentence longer than `maxChunkSize` ends up with its trimmed form as a
chunk of its own (an oversized chunk), so the size bound is only soft and
long sentences are never truncated. -/
theorem c3_sentences_not_split (t : List Char) (m : Nat) (p s : List Char)
    (hp : p ∈ splitParas t) (hs : s ∈ splitSentences p) (hne : trim s ≠ []) :
    (∃ c ∈ chunkText t m, trim s <:+: c) ∧
      (s.length > m → trim s ∈ chunkText t m) := by
  have hs0 : s ≠ [] := by
    intro he
    subst he
    exact hne rfl
  obtain ⟨q1, q2, hq⟩ := List.append_of_mem hp
  have hseen : SeenIn (trim s) ((splitParas t).foldl (procPara m) ⟨[], [], 0⟩) := by
    rw [hq, List.foldl_append, List.foldl_cons]
    exact foldl_preserve
      (fun st a h => seen_procPara (fun c hc => head?_trim_not_ws hc)
        (fun c hc => getLast?_trim_not_ws hc) m st a h) q2 _
      (seen_procPara_estab m _ hs)
  have halone : s.length > m → Alone m s ((splitParas t).foldl (procPara m) ⟨[], [], 0⟩) := by
    intro hlen
    rw [hq, List.foldl_append, List.foldl_cons]
    have hinvq : Inv0 (q1.foldl (procPara m) ⟨[], [], 0⟩) :=
      foldl_preserve (fun st a ha => inv0_procPara m st a ha) q1 _ (fun _ => rfl)
    exact foldl_preserve (fun st a ha => alone_procPara hs0 st a ha) q2 _
      (alone_procPara_estab hlen hs0 hs _ hinvq)
  unfold chunkText
  set stf := (splitParas t).foldl (procPara m) ⟨[], [], 0⟩ with hstf
  constructor
  · rcases hseen with h | ⟨c, hc, hzc⟩
    · have h2 : trim s <:+: trim stf.cur :=
        infix_trim_of_ends h (fun c hc => head?_trim_not_ws hc)
          (fun c hc => getLast?_trim_not_ws hc)
      have h3 : trim stf.cur ≠ [] := by
        intro heq
        rw [heq] at h2
        exact hne (infix_nil_of h2)
      rw [if_neg h3]
      exact ⟨trim stf.cur, List.mem_append_right _ (List.mem_singleton.mpr rfl), h2⟩
    · by_cases hcc : trim stf.cur = []
      · rw [if_pos hcc]
        exact ⟨c, hc, hzc⟩
      · rw [if_neg hcc]
        exact ⟨c, List.mem_append_left _ hc, hzc⟩
  · intro hlen
    rcases halone hlen with h | ⟨w, hw, hcur, _⟩
    · by_cases hcc : trim stf.cur = []
      · rw [if_pos hcc]
        exact h
      · rw [if_neg hcc]
        exact List.mem_append_left _ h
    · have htc : trim stf.cur = trim s := by
        rw [hcur]
        exact trim_append_ws s hw
      have hne2 : trim stf.cur ≠ [] := by
        rw [htc]
        exact hne
      rw [if_neg hne2, htc]
      exact List.mem_append_right _ (List.mem_singleton.mpr rfl)

/-- C3 witness: the text `"A. BBB"` with `maxChunkSize = 2` has paragraph
`"A. BBB"` with sentences `"A."` and `"BBB"`; the oversized sentence
`"BBB"` is contained in one chunk and is itself a chunk. -/
theorem c3_sentences_not_split_witness :
    (∃ c ∈ chunkText ['A', '.', ' ', 'B', 'B', 'B'] 2, trim ['B', 'B', 'B'] <:+: c) ∧
      (['B', 'B', 'B'].length > 2 →
        trim ['B', 'B', 'B'] ∈ chunkText ['A', '.', ' ', 'B', 'B', 'B'] 2) :=
  c3_sentences_not_split ['A', '.', ' ', 'B', 'B', 'B'] 2 ['A', '.', ' ', 'B', 'B', 'B']
    ['B', 'B', 'B'] (by decide) (by decide) (by decide)

/-- Chunks already emitted by the chunker are all fixed points of `trim`. -/
def TrimmedChunks (st : ChunkSt) : Prop := ∀ c ∈ st.chunks, trim c = c

theorem trimmed_flush (st : ChunkSt) (h : TrimmedChunks st) :
    TrimmedChunks (flushChunk st) := by
  intro c hc
  rcases List.mem_append.mp hc with hc | hc
  · exact h c hc
  · rw [List.mem_singleton.mp hc]
    exact trim_trim st.cur

theorem trimmed_procSentence (m : Nat) (st : ChunkSt) (s : List Char)
    (h : TrimmedChunks st) : TrimmedChunks (procSentence m st s) := by
  unfold procSentence
  by_cases hf : st.size + s.length > m ∧ st.cur ≠ []
  · rw [if_pos hf]
    intro c hc
    exact trimmed_flush st h c hc
  · rw [if_neg hf]
    intro c hc
    exact h c hc

theorem trimmed_procPara (m : Nat) (st : ChunkSt) (p : List Char)
    (h : TrimmedChunks st) : TrimmedChunks (procPara m st p) := by
  unfold procPara
  have h1 : TrimmedChunks (if st.size + p.length > m ∧ st.cur ≠ [] then flushChunk st else st) := by
    by_cases hf : st.size + p.length > m ∧ st.cur ≠ []
    · rw [if_pos hf]
      exact trimmed_flush st h
    · rw [if_neg hf]
      exact h
  have h2 : TrimmedChunks ((splitSentences p).foldl (procSentence m)
      (if st.size + p.length > m ∧ st.cur ≠ [] then flushChunk st else st)) :=
    foldl_preserve (fun st a ha => trimmed_procSentence m st a ha) _ _ h1
  by_cases hc2 : ((splitSentences p).foldl (procSentence m)
      (if st.size + p.length > m ∧ st.cur ≠ [] then flushChunk st else st)).cur = []
  · rw [if_pos hc2]
    exact h2
  · rw [if_neg hc2]
    intro c hc
    exact h2 c hc

/-- C10: every chunk returned by `chunkText` equals its own trim; no
returned chunk carries leading or trailing whitespace, because every
chunk is passed through `trim` right before being emitted. -/
theorem c10_chunks_trimmed (t : List Char) (m : Nat) (c : List Char)
    (hc : c ∈ chunkText t m) : trim c = c := by
  unfold chunkText at hc
  set stf := (splitParas t).foldl (procPara m) ⟨[], [], 0⟩ with hstf
  have h2 : TrimmedChunks stf :=
    foldl_preserve (fun st a ha => trimmed_procPara m st a ha) _ _
      (fun c hc => absurd hc (List.not_mem_nil c))
  by_cases hcc : trim stf.cur = []
  · rw [if_pos hcc] at hc
    exact h2 c hc
  · rw [if_neg hcc] at hc
    rcases List.mem_append.mp hc with hc | hc
    · exact h2 c hc
    · rw [List.mem_singleton.mp hc]
      exact trim_trim stf.cur

/-- C10 witness: `chunkText "ab" 5 = ["ab"]` and the chunk `"ab"` equals
its own trim. -/
theorem c10_chunks_trimmed_witness : trim ['a', 'b'] = ['a', 'b'] :=
  c10_chunks_trimmed ['a', 'b'] 5 ['a', 'b'] (by decide)

/-- C4 counterexample: for the text `" \n\nAAAA"` (a whitespace-only
paragraph followed by a paragraph that overflows the limit) and
`maxChunkSize = 3`, `chunkText` returns `["", "AAAA"]`: the accumulated
whitespace-only chunk is flushed as the empty string after trimming, so
it is false that every returned chunk is non-empty. -/
theorem c4_counterexample :
    ¬ ∀ c ∈ chunkText [' ', '\n', '\n', 'A', 'A', 'A', 'A'] 3, c ≠ [] := by
  decide

/-- C4 (amended): `chunkText` on the empty text returns the empty chunk
sequence for every maximum chunk size; however, chunks of a non-empty
text are not all guaranteed non-empty (see the counterexample, where a
whitespace-only accumulated chunk is flushed as an empty string). -/
theorem c4_empty_input (n : Nat) : chunkText [] n = [] := by
  have hps : procSentence n ⟨[], [], 0⟩ [] = ⟨[], [], 0⟩ := by
    simp [procSentence, flushChunk]
  have hpp : procPara n ⟨[], [], 0⟩ [] = ⟨[], [], 0⟩ := by
    simp [procPara, show splitSentences [] = [[]] from rfl, hps]
  simp [chunkText, show splitParas [] = [[]] from rfl, hpp, trim, trimL, trimR]

/-- Outcome of the guard at the top of `scrapeWebPage`: either the
invalid-URL error is thrown, or control reaches the `axios.get` network
fetch. -/
inductive ScrapeStart where
  | invalidUrl : ScrapeStart
  | fetchIssued : ScrapeStart
deriving DecidableEq, Repr

/-- The JS test `url.startsWith('http')` used by `scrapeWebPage`. -/
def startsWithHttp : List Char → Bool
  | 'h' :: 't' :: 't' :: 'p' :: _ => true
  | _ => false

/-- Model of the head of `scrapeWebPage`: `if (!url.startsWith('http'))`
throw the invalid-URL error, otherwise issue the fetch. -/
def scrapeStart (url : List Char) : ScrapeStart :=
  if startsWithHttp url then .fetchIssued else .invalidUrl

/-- Scheme of a URL string: the characters before the first ':'. -/
def schemeOf (url : List Char) : List Char := url.takeWhile (fun c => c ≠ ':')

/-- C5 counterexample: the URL `"httpzz://e"` has scheme `httpzz`, which
is neither `http` nor `https`, yet the guard of `scrapeWebPage` accepts
it (the code only tests the string prefix `"http"`), so the network fetch
is issued for a URL whose scheme is not http/https — the claim that every
such URL fails before any network access is false. -/
theorem c5_counterexample :
    schemeOf ['h','t','t','p','z','z',':','/','/','e'] ≠ ['h','t','t','p'] ∧
    schemeOf ['h','t','t','p','z','z',':','/','/','e'] ≠ ['h','t','t','p','s'] ∧
    scrapeStart ['h','t','t','p','z','z',':','/','/','e'] = .fetchIssued := by
  decide

/-- C5 (amended): extraction fails with the invalid-URL error before any
network access exactly for URLs that do not start with the literal string
`"http"`; every URL so rejected indeed has a scheme that is neither
`http` nor `https`, but a non-http(s) scheme that merely begins with
`"http"` (such as `httpzz:`) passes the guard and the fetch is issued. -/
theorem c5_guard (url : List Char) :
    (scrapeStart url = .invalidUrl ↔ startsWithHttp url = false) ∧
    (startsWithHttp url = false →
      schemeOf url ≠ ['h','t','t','p'] ∧ schemeOf url ≠ ['h','t','t','p','s']) := by
  constructor
  · constructor
    · intro h
      by_contra hb
      have hb2 : startsWithHttp url = true := by simpa using hb
      rw [scrapeStart, if_pos hb2] at h
      exact ScrapeStart.noConfusion h
    · intro h
      rw [scrapeStart, if_neg (by simp [h])]
  · intro h
    constructor
    · intro hs
      have h2 := List.takeWhile_append_dropWhile (p := fun c => c ≠ ':') (l := url)
      rw [schemeOf] at hs
      rw [hs] at h2
      rw [← h2] at h
      simp [startsWithHttp] at h
    · intro hs
      have h2 := List.takeWhile_append_dropWhile (p := fun c => c ≠ ':') (l := url)
      rw [schemeOf] at hs
      rw [hs] at h2
      rw [← h2] at h
      simp [startsWithHttp] at h

/-- C5 witness: `"ftp:x"` does not start with `"http"`, and the amended
theorem yields that its scheme is neither http nor https. -/
theorem c5_guard_witness :
    schemeOf ['f','t','p',':','x'] ≠ ['h','t','t','p'] ∧
      schemeOf ['f','t','p',':','x'] ≠ ['h','t','t','p','s'] :=
  (c5_guard ['f','t','p',':','x']).2 (by decide)

/-- Strip the fragment: model of `.replace(/#.*$/, '')` on a URL string —
everything from the first `'#'` on is removed (URL strings contain no
newline, so the regex classes `.` and `$` behave plainly here). -/
def stripFrag (l : List Char) : List Char := l.takeWhile (fun c => c ≠ '#')

/-- Strip one trailing slash: model of `.replace(/\/$/, '')`. -/
def stripSlash (l : List Char) : List Char :=
  if l.getLast? = some '/' then l.dropLast else l

/-- URL normalization applied to each resolved link in `scrapeWebPage`:
remove the fragment, then remove a single trailing slash. -/
def canonicalize (l : List Char) : List Char := stripSlash (stripFrag l)

theorem stripSlash_self_append (x : List Char) : ∃ d, stripSlash x ++ d = x := by
  unfold stripSlash
  by_cases hl : x.getLast? = some '/'
  · rw [if_pos hl]
    have hne : x ≠ [] := by
      intro he
      subst he
      exact Option.noConfusion hl
    exact ⟨[x.getLast hne], List.dropLast_append_getLast hne⟩
  · rw [if_neg hl]
    exact ⟨[], List.append_nil _⟩

/-- C6 counterexample: `"http://a//"` is a valid absolute URL (its path
has an empty last segment) ending in a trailing slash, but
canonicalization is not idempotent on it: one application yields
`"http://a/"`, and a second application strips one more slash, yielding
`"http://a"`. -/
theorem c6_counterexample :
    ['h','t','t','p',':','/','/','a','/','/'].getLast? = some '/' ∧
    canonicalize (canonicalize ['h','t','t','p',':','/','/','a','/','/']) ≠
      canonicalize ['h','t','t','p',':','/','/','a','/','/'] := by
  decide

/-- C6 (amended): canonicalization removes everything from the first
`'#'` and then at most one trailing slash — the result is a prefix of the
input and contains no `'#'`, and no other normalization happens; it is
idempotent whenever its result does not itself end in `'/'` (the result
ends in `'/'` only when the pre-fragment part of the input ends in
`"//"`), but on such inputs a second application strips one more slash. -/
theorem c6_canonicalize (u : List Char) :
    (∃ d, canonicalize u ++ d = u) ∧
    '#' ∉ canonicalize u ∧
    ((canonicalize u).getLast? ≠ some '/' →
      canonicalize (canonicalize u) = canonicalize u) := by
  have hnf : '#' ∉ canonicalize u := by
    intro hmem
    have h2 : '#' ∈ stripFrag u := by
      show '#' ∈ stripFrag u
      unfold canonicalize stripSlash at hmem
      by_cases hl : (stripFrag u).getLast? = some '/'
      · rw [if_pos hl] at hmem
        exact List.dropLast_subset _ hmem
      · rw [if_neg hl] at hmem
        exact hmem
    have h3 := List.mem_takeWhile_imp h2
    simp at h3
  refine ⟨?_, hnf, ?_⟩
  · obtain ⟨d2, hd2⟩ := stripSlash_self_append (stripFrag u)
    refine ⟨d2 ++ u.dropWhile (fun c => c ≠ '#'), ?_⟩
    rw [← List.append_assoc]
    show stripSlash (stripFrag u) ++ d2 ++ u.dropWhile (fun c => c ≠ '#') = u
    rw [hd2]
    exact List.takeWhile_append_dropWhile _ _
  · intro hl
    have h2 : stripFrag (canonicalize u) = canonicalize u :=
      List.takeWhile_eq_self_iff.mpr (fun c hc => by
        simp only [decide_eq_true_eq]
        intro he
        subst he
        exact hnf hc)
    show stripSlash (stripFrag (canonicalize u)) = canonicalize u
    rw [h2]
    unfold stripSlash
    rw [if_neg hl]

/-- C6 witness: the URL `"http://a/#f"` carries both a fragment and a
trailing slash; canonicalize strips both and a second application changes
nothing. -/
theorem c6_canonicalize_witness :
    canonicalize (canonicalize ['h','t','t','p',':','/','/','a','/','#','f']) =
      canonicalize ['h','t','t','p',':','/','/','a','/','#','f'] :=
  (c6_canonicalize ['h','t','t','p',':','/','/','a','/','#','f']).2.2 (by decide)

/-- Structured absolute URL, as produced by the URL parsing primitive for
hierarchical (http-style) URLs: it serializes as
`scheme ++ "://" ++ host ++ path ++ ("#" ++ fragment)?` and its origin is
`scheme ++ "://" ++ host` (the host part includes any port). -/
structure AbsUrl where
  scheme : List Char
  host : List Char
  path : List Char
  frag : Option (List Char)
deriving DecidableEq, Repr

/-- Origin of a parsed URL (`absoluteUrl.origin` in the source). -/
def urlOrigin (u : AbsUrl) : List Char := u.scheme ++ ':' :: '/' :: '/' :: u.host

/-- Serialization of a parsed URL (`absoluteUrl.toString()` in the source). -/
def urlStr (u : AbsUrl) : List Char :=
  urlOrigin u ++ u.path ++ (match u.frag with | none => [] | some f => '#' :: f)

/-- Well-formedness of a parsed hierarchical URL: the scheme contains no
`':'`, `'/'` or `'#'`; the host contains no `'/'` or `'#'`; the path
starts with `'/'` and contains no `'#'`. -/
def wfUrl (u : AbsUrl) : Prop :=
  u.scheme ≠ [] ∧ (∀ c ∈ u.scheme, c ≠ ':' ∧ c ≠ '/' ∧ c ≠ '#') ∧
  u.host ≠ [] ∧ (∀ c ∈ u.host, c ≠ '/' ∧ c ≠ '#') ∧
  u.path.head? = some '/' ∧ (∀ c ∈ u.path, c ≠ '#')

/-- Normalized form of a resolved link (`normalizedUrl` in the source). -/
def normUrl (u : AbsUrl) : List Char := canonicalize (urlStr u)

instance wfUrlDecidable (u : AbsUrl) : Decidable (wfUrl u) := by
  unfold wfUrl
  infer_instance

theorem takeWhile_append_all {p : Char → Bool} {a : List Char} (b : List Char)
    (h : ∀ c ∈ a, p c = true) : (a ++ b).takeWhile p = a ++ b.takeWhile p := by
  induction a with
  | nil => rfl
  | cons x a ih =>
      rw [List.cons_append, List.takeWhile_cons, if_pos (h x (List.mem_cons_self x a)),
        ih (fun c hc => h c (List.mem_cons_of_mem x hc)), List.cons_append]

theorem stripFrag_urlStr {u : AbsUrl} (h : wfUrl u) :
    stripFrag (urlStr u) = urlOrigin u ++ u.path := by
  obtain ⟨hs0, hs, hh0, hh, hp, hnf⟩ := h
  have hall : ∀ c ∈ urlOrigin u ++ u.path, (fun c => decide (c ≠ '#')) c = true := by
    intro c hc
    simp only [decide_eq_true_eq]
    rcases List.mem_append.mp hc with hc | hc
    · rcases List.mem_append.mp hc with hc | hc
      · exact (hs c hc).2.2
      · rcases List.mem_cons.mp hc with rfl | hc
        · decide
        · rcases List.mem_cons.mp hc with rfl | hc
          · decide
          · rcases List.mem_cons.mp hc with rfl | hc
            · decide
            · exact (hh c hc).2
    · exact hnf c hc
  rw [stripFrag, urlStr, takeWhile_append_all _ hall]
  cases u.frag with
  | none => simp
  | some f =>
      rw [List.takeWhile_cons]
      simp

theorem norm_shape {u : AbsUrl} (h : wfUrl u) :
    normUrl u = u.scheme ++ ':' :: '/' :: '/' :: (u.host ++ stripSlash u.path) ∧
    (stripSlash u.path = [] ∨ ∃ q, stripSlash u.path = '/' :: q) := by
  obtain ⟨p2, hp2⟩ : ∃ p2, u.path = '/' :: p2 := by
    obtain ⟨hs0, hs, hh0, hh, hp, hnf⟩ := h
    cases hpc : u.path with
    | nil => rw [hpc] at hp; exact Option.noConfusion hp
    | cons a q =>
        rw [hpc] at hp
        simp only [List.head?_cons, Option.some.injEq] at hp
        exact ⟨q, by rw [hp]⟩
  have hpne : u.path ≠ [] := by rw [hp2]; simp
  constructor
  · rw [normUrl, canonicalize, stripFrag_urlStr h]
    unfold stripSlash
    rw [List.getLast?_append_of_ne_nil _ hpne]
    by_cases hsl : u.path.getLast? = some '/'
    · rw [if_pos hsl, if_pos hsl, List.dropLast_append_of_ne_nil _ hpne, urlOrigin]
      simp [List.append_assoc]
    · rw [if_neg hsl, if_neg hsl, urlOrigin]
      simp [List.append_assoc]
  · unfold stripSlash
    by_cases hsl : u.path.getLast? = some '/'
    · rw [if_pos hsl, hp2]
      cases p2 with
      | nil => exact Or.inl rfl
      | cons a q =>
          right
          exact ⟨(a :: q).dropLast, by simp⟩
    · rw [if_neg hsl, hp2]
      exact Or.inr ⟨p2, rfl⟩

theorem append_cons_inj {sep : Char} {a b a2 b2 : List Char}
    (ha : ∀ c ∈ a, c ≠ sep) (ha2 : ∀ c ∈ a2, c ≠ sep)
    (h : a ++ sep :: b = a2 ++ sep :: b2) : a = a2 ∧ b = b2 := by
  induction a generalizing a2 with
  | nil =>
      cases a2 with
      | nil =>
          rw [List.nil_append, List.nil_append] at h
          injection h with _ h2
          exact ⟨rfl, h2⟩
      | cons x a2 =>
          rw [List.nil_append, List.cons_append] at h
          injection h with h1 _
          exact absurd h1.symm (ha2 x (List.mem_cons_self x a2))
  | cons x a ih =>
      cases a2 with
      | nil =>
          rw [List.cons_append, List.nil_append] at h
          injection h with h1 _
          exact absurd h1 (ha x (List.mem_cons_self x a))
      | cons y a2 =>
          rw [List.cons_append, List.cons_append] at h
          injection h with h1 h2
          obtain ⟨hA, hB⟩ := ih (fun c hc => ha c (List.mem_cons_of_mem x hc))
            (fun c hc => ha2 c (List.mem_cons_of_mem y hc)) h2
          exact ⟨by rw [h1, hA], hB⟩

theorem norm_origin_inj {u1 u2 : AbsUrl} (hw1 : wfUrl u1) (hw2 : wfUrl u2)
    (he : normUrl u1 = normUrl u2) : urlOrigin u1 = urlOrigin u2 := by
  obtain ⟨hs1, hp1⟩ := norm_shape hw1
  obtain ⟨hs2, hp2⟩ := norm_shape hw2
  rw [hs1, hs2] at he
  obtain ⟨hsch, he2⟩ := append_cons_inj
    (fun c hc => (hw1.2.1 c hc).1) (fun c hc => (hw2.2.1 c hc).1) he
  injection he2 with _ he3
  injection he3 with _ he4
  have hhost : u1.host = u2.host := by
    rcases hp1 with hq1 | ⟨q1, hq1⟩
    · rcases hp2 with hq2 | ⟨q2, hq2⟩
      · rw [hq1, hq2, List.append_nil, List.append_nil] at he4
        exact he4
      · rw [hq1, hq2, List.append_nil] at he4
        have hmem : '/' ∈ u1.host := by
          rw [he4]
          exact List.mem_append_right _ (List.mem_cons_self _ _)
        exact absurd rfl (hw1.2.2.2.1 '/' hmem).1
    · rcases hp2 with hq2 | ⟨q2, hq2⟩
      · rw [hq1, hq2, List.append_nil] at he4
        have hmem : '/' ∈ u2.host := by
          rw [← he4]
          exact List.mem_append_right _ (List.mem_cons_self _ _)
        exact absurd rfl (hw2.2.2.2.1 '/' hmem).1
      · rw [hq1, hq2] at he4
        exact (append_cons_inj (fun c hc => (hw1.2.2.2.1 c hc).1)
          (fun c hc => (hw2.2.2.2.1 c hc).1) he4).1
  rw [urlOrigin, urlOrigin, hsch, hhost]

/-- Model of `Set.add` on an insertion-ordered, duplicate-free list. -/
def setAdd (s : List (List Char)) (x : List Char) : List (List Char) :=
  if x ∈ s then s else s ++ [x]

/-- One step of the `$('a').each` classification loop of `scrapeWebPage`:
the resolved link is normalized, then added to the internal set when its
origin equals the base origin and to the external set otherwise. -/
def classifyStep (bOrig : List Char) (acc : List (List Char) × List (List Char))
    (u : AbsUrl) : List (List Char) × List (List Char) :=
  if urlOrigin u = bOrig then (setAdd acc.1 (normUrl u), acc.2)
  else (acc.1, setAdd acc.2 (normUrl u))

/-- The link classification of `scrapeWebPage` over the resolved links of
a page, producing the pair (internalLinks, externalLinks). -/
def classifyLinks (bOrig : List Char) (links : List AbsUrl) :
    List (List Char) × List (List Char) :=
  links.foldl (classifyStep bOrig) ([], [])

theorem mem_setAdd {s : List (List Char)} {x y : List Char} :
    y ∈ setAdd s x ↔ y ∈ s ∨ y = x := by
  unfold setAdd
  by_cases h : x ∈ s
  · rw [if_pos h]
    constructor
    · exact Or.inl
    · rintro (h2 | rfl)
      · exact h2
      · exact h
  · rw [if_neg h]
    simp [List.mem_append]

theorem classify_mem (bOrig : List Char) (links : List AbsUrl) :
    ∀ acc : List (List Char) × List (List Char), ∀ x,
      (x ∈ (links.foldl (classifyStep bOrig) acc).1 ↔
        x ∈ acc.1 ∨ ∃ u ∈ links, urlOrigin u = bOrig ∧ x = normUrl u) ∧
      (x ∈ (links.foldl (classifyStep bOrig) acc).2 ↔
        x ∈ acc.2 ∨ ∃ u ∈ links, urlOrigin u ≠ bOrig ∧ x = normUrl u) := by
  induction links with
  | nil =>
      intro acc x
      simp
  | cons u links ih =>
      intro acc x
      rw [List.foldl_cons]
      constructor
      · rw [(ih (classifyStep bOrig acc u) x).1]
        unfold classifyStep
        by_cases ho : urlOrigin u = bOrig
        · rw [if_pos ho]
          simp only [mem_setAdd]
          constructor
          · rintro ((h | rfl) | ⟨v, hv, ho2, rfl⟩)
            · exact Or.inl h
            · exact Or.inr ⟨u, List.mem_cons_self u links, ho, rfl⟩
            · exact Or.inr ⟨v, List.mem_cons_of_mem u hv, ho2, rfl⟩
          · rintro (h | ⟨v, hv, ho2, rfl⟩)
            · exact Or.inl (Or.inl h)
            · rcases List.mem_cons.mp hv with rfl | hv
              · exact Or.inl (Or.inr rfl)
              · exact Or.inr ⟨v, hv, ho2, rfl⟩
        · rw [if_neg ho]
          constructor
          · rintro (h | ⟨v, hv, ho2, rfl⟩)
            · exact Or.inl h
            · exact Or.inr ⟨v, List.mem_cons_of_mem u hv, ho2, rfl⟩
          · rintro (h | ⟨v, hv, ho2, rfl⟩)
            · exact Or.inl h
            · rcases List.mem_cons.mp hv with rfl | hv
              · exact absurd ho2 ho
              · exact Or.inr ⟨v, hv, ho2, rfl⟩
      · rw [(ih (classifyStep bOrig acc u) x).2]
        unfold classifyStep
        by_cases ho : urlOrigin u = bOrig
        · rw [if_pos ho]
          constructor
          · rintro (h | ⟨v, hv, ho2, rfl⟩)
            · exact Or.inl h
            · exact Or.inr ⟨v, List.mem_cons_of_mem u hv, ho2, rfl⟩
          · rintro (h | ⟨v, hv, ho2, rfl⟩)
            · exact Or.inl h
            · rcases List.mem_cons.mp hv with rfl | hv
              · exact absurd ho ho2
              · exact Or.inr ⟨v, hv, ho2, rfl⟩
        · rw [if_neg ho]
          simp only [mem_setAdd]
          constructor
          · rintro ((h | rfl) | ⟨v, hv, ho2, rfl⟩)
            · exact Or.inl h
            · exact Or.inr ⟨u, List.mem_cons_self u links, ho, rfl⟩
            · exact Or.inr ⟨v, List.mem_cons_of_mem u hv, ho2, rfl⟩
          · rintro (h | ⟨v, hv, ho2, rfl⟩)
            · exact Or.inl (Or.inl h)
            · rcases List.mem_cons.mp hv with rfl | hv
              · exact Or.inl (Or.inr rfl)
              · exact Or.inr ⟨v, hv, ho2, rfl⟩

/-- C7: in the link classification of `scrapeWebPage`, a normalized URL is
in the internal set exactly when it comes from a resolved link whose
origin equals the base URL's origin, and in the external set exactly when
it comes from a link with a different origin; and for well-formed
hierarchical links the two sets are disjoint — no normalized URL appears
in both (normalization strips only the fragment and one trailing slash,
so it cannot identify URLs of different origins). -/
theorem c7_links_disjoint (b : AbsUrl) (links : List AbsUrl)
    (hl : ∀ u ∈ links, wfUrl u) :
    (∀ x, x ∈ (classifyLinks (urlOrigin b) links).1 ↔
      ∃ u ∈ links, urlOrigin u = urlOrigin b ∧ x = normUrl u) ∧
    (∀ x, x ∈ (classifyLinks (urlOrigin b) links).2 ↔
      ∃ u ∈ links, urlOrigin u ≠ urlOrigin b ∧ x = normUrl u) ∧
    (∀ x, x ∈ (classifyLinks (urlOrigin b) links).1 →
      x ∉ (classifyLinks (urlOrigin b) links).2) := by
  have hm := classify_mem (urlOrigin b) links ([], [])
  have hI : ∀ x, x ∈ (classifyLinks (urlOrigin b) links).1 ↔
      ∃ u ∈ links, urlOrigin u = urlOrigin b ∧ x = normUrl u := by
    intro x
    rw [classifyLinks, (hm x).1]
    simp
  have hE : ∀ x, x ∈ (classifyLinks (urlOrigin b) links).2 ↔
      ∃ u ∈ links, urlOrigin u ≠ urlOrigin b ∧ x = normUrl u := by
    intro x
    rw [classifyLinks, (hm x).2]
    simp
  refine ⟨hI, hE, ?_⟩
  intro x hx1 hx2
  obtain ⟨u, hu, hou, hxu⟩ := (hI x).mp hx1
  obtain ⟨v, hv, hov, hxv⟩ := (hE x).mp hx2
  have he : normUrl u = normUrl v := by rw [← hxu, ← hxv]
  exact hov ((norm_origin_inj (hl v hv) (hl u hu) he.symm).trans hou)

/-- C7 witness: base `http://a` with links `http://a/x` (internal) and
`http://b/x` (external); membership is as characterized and the two sets
are disjoint. -/
theorem c7_links_disjoint_witness :
    (∀ x, x ∈ (classifyLinks
        (urlOrigin ⟨['h','t','t','p'], ['a'], ['/'], none⟩)
        [⟨['h','t','t','p'], ['a'], ['/','x'], none⟩,
         ⟨['h','t','t','p'], ['b'], ['/','x'], none⟩]).1 ↔
      ∃ u ∈ [⟨['h','t','t','p'], ['a'], ['/','x'], none⟩,
         (⟨['h','t','t','p'], ['b'], ['/','x'], none⟩ : AbsUrl)],
        urlOrigin u = urlOrigin ⟨['h','t','t','p'], ['a'], ['/'], none⟩ ∧ x = normUrl u) ∧
    (∀ x, x ∈ (classifyLinks
        (urlOrigin ⟨['h','t','t','p'], ['a'], ['/'], none⟩)
        [⟨['h','t','t','p'], ['a'], ['/','x'], none⟩,
         ⟨['h','t','t','p'], ['b'], ['/','x'], none⟩]).2 ↔
      ∃ u ∈ [⟨['h','t','t','p'], ['a'], ['/','x'], none⟩,
         (⟨['h','t','t','p'], ['b'], ['/','x'], none⟩ : AbsUrl)],
        urlOrigin u ≠ urlOrigin ⟨['h','t','t','p'], ['a'], ['/'], none⟩ ∧ x = normUrl u) ∧
    (∀ x, x ∈ (classifyLinks
        (urlOrigin ⟨['h','t','t','p'], ['a'], ['/'], none⟩)
        [⟨['h','t','t','p'], ['a'], ['/','x'], none⟩,
         ⟨['h','t','t','p'], ['b'], ['/','x'], none⟩]).1 →
      x ∉ (classifyLinks
        (urlOrigin ⟨['h','t','t','p'], ['a'], ['/'], none⟩)
        [⟨['h','t','t','p'], ['a'], ['/','x'], none⟩,
         ⟨['h','t','t','p'], ['b'], ['/','x'], none⟩]).2) :=
  c7_links_disjoint ⟨['h','t','t','p'], ['a'], ['/'], none⟩
    [⟨['h','t','t','p'], ['a'], ['/','x'], none⟩,
     ⟨['h','t','t','p'], ['b'], ['/','x'], none⟩] (by decide)

/-- Metadata stored with each vector entry (`{url, body, head}` in
`insertIntoDB`) and returned by the store's nearest-neighbor query. -/
structure ChatMeta where
  url : List Char
  head : List Char
  body : List Char
deriving DecidableEq, Repr

/-- Coercion performed by JS `Array.prototype.join` on an element: a
missing (`undefined`) value joins as the empty string. -/
def jsStr : Option (List Char) → List Char
  | some s => s
  | none => []

/-- Model of `collectionResult.metadatas[0].map(m => m?.head).join("\n")`
from `chat`. -/
def chatHead (ms : List (Option ChatMeta)) : List Char :=
  List.intercalate ['\n'] (ms.map (fun m => jsStr (Option.map (fun x => x.head) m)))

/-- Model of `....map(d => d?.body).filter(body => body !== "").join("\n")`
from `chat`: bodies are projected, values equal to the empty string are
dropped (an `undefined` body passes the filter, since `undefined !== ""`),
and the survivors are joined. -/
def chatBody (ms : List (Option ChatMeta)) : List Char :=
  List.intercalate ['\n']
    (((ms.map (fun m => Option.map (fun x => x.body) m)).filter
      (fun b => b ≠ some [])).map jsStr)

/-- Model of `....map(metadata => metadata?.url).join("\n")` from `chat`. -/
def chatUrl (ms : List (Option ChatMeta)) : List Char :=
  List.intercalate ['\n'] (ms.map (fun m => jsStr (Option.map (fun x => x.url) m)))

/-- Aggregation as the specification words it: newline-join of every
result's head, with no filtering. -/
def headTextSpec (ms : List ChatMeta) : List Char :=
  List.intercalate ['\n'] (ms.map (fun x => x.head))

/-- Aggregation as the specification words it: newline-join of every
result's body, excluding entries whose body is empty, in order. -/
def bodyTextSpec (ms : List ChatMeta) : List Char :=
  List.intercalate ['\n'] ((ms.map (fun x => x.body)).filter (fun b => b ≠ []))

/-- Aggregation as the specification words it: newline-join of every
result's url, duplicates preserved, in order. -/
def urlTextSpec (ms : List ChatMeta) : List Char :=
  List.intercalate ['\n'] (ms.map (fun x => x.url))

/-- C8: on a list of present metadata records, the aggregation performed
by `chat` coincides with the specified one — `headText` joins every head
with no filtering, `bodyText` joins the bodies excluding empty ones, and
`urlList` joins every url with duplicates preserved, all in store order;
in particular bodies `["b1", "", "b2"]` yield `"b1\nb2"` while the heads
of all three entries are joined. -/
theorem c8_retrieval_aggregation (ms : List ChatMeta) :
    chatHead (ms.map some) = headTextSpec ms ∧
    chatBody (ms.map some) = bodyTextSpec ms ∧
    chatUrl (ms.map some) = urlTextSpec ms := by
  refine ⟨?_, ?_, ?_⟩
  · unfold chatHead headTextSpec
    congr 1
    rw [List.map_map]
    rfl
  · unfold chatBody bodyTextSpec
    congr 1
    induction ms with
    | nil => rfl
    | cons x ms ih =>
        simp only [List.map_cons, List.filter_cons]
        by_cases hb : x.body = []
        · rw [if_neg (by simp [hb]), if_neg (by simp [hb])]
          exact ih
        · rw [if_pos (by simp [hb]), if_pos (by simp [hb])]
          simp only [List.map_cons]
          rw [ih]
          rfl
  · unfold chatUrl urlTextSpec
    congr 1
    rw [List.map_map]
    rfl

/-- Entry persisted to the vector store by `insertIntoDB`. -/
structure DbEntry where
  id : List Char
  url : List Char
  head : List Char
  body : List Char
deriving DecidableEq, Repr

/-- The fresh identifier built by `insertIntoDB` from the url, the
decimal rendering `t` of `Date.now()` and the random base-36 suffix `r`
(both dash-free strings), joined with dashes. -/
def mkId (url t r : List Char) : List Char := url ++ ('-' :: t) ++ ('-' :: r)

/-- A string with no dash, as produced by `Date.now()` (decimal digits)
and `Math.random().toString(36).substr(2, 9)` (digits and lowercase
letters). -/
def dashFree (l : List Char) : Prop := ∀ c ∈ l, c ≠ '-'

instance dashFreeDecidable (l : List Char) : Decidable (dashFree l) := by
  unfold dashFree
  infer_instance

theorem mkId_inj {url t1 r1 t2 r2 : List Char} (h1 : dashFree t1) (h2 : dashFree t2)
    (he : mkId url t1 r1 = mkId url t2 r2) : t1 = t2 ∧ r1 = r2 := by
  unfold mkId at he
  rw [List.append_assoc, List.append_assoc] at he
  have he2 := List.append_cancel_left he
  rw [List.cons_append, List.cons_append] at he2
  injection he2 with _ he3
  exact append_cons_inj h1 h2 he3

/-- Model of `insertIntoDB` from src/index.ts: build the fresh unique id
and append one entry with metadata `{url, body, head}` — `collection.add`
adds, it never overwrites an existing entry. -/
def insertIntoDB (t r url hd bd : List Char) (store : List DbEntry) : List DbEntry :=
  store ++ [⟨mkId url t r, url, hd, bd⟩]

/-- The persistence loops of `ingest`: one `insertIntoDB` call per chunk
payload (metadata head/body pair), each consuming one fresh
timestamp/random draw. -/
def persistChunks (url : List Char) :
    List (List Char × List Char) → List (List Char × List Char) →
    List DbEntry → List DbEntry
  | [], _, store => store
  | _ :: _, [], store => store
  | pb :: ps, d :: ds, store =>
      persistChunks url ps ds (insertIntoDB d.1 d.2 url pb.1 pb.2 store)

/-- Number of stored entries whose metadata url is `u`. -/
def countUrl (store : List DbEntry) (u : List Char) : Nat :=
  (store.filter (fun e => e.url = u)).length

/-- Identifiers of the entries one run of `persistChunks` generates. -/
def newIds (url : List Char) (ps ds : List (List Char × List Char)) : List (List Char) :=
  (persistChunks url ps ds []).map (fun e => e.id)

theorem persist_append (url : List Char) (ps : List (List Char × List Char)) :
    ∀ ds store, persistChunks url ps ds store = store ++ persistChunks url ps ds [] := by
  induction ps with
  | nil =>
      intro ds store
      cases ds <;> simp [persistChunks]
  | cons pb ps ih =>
      intro ds store
      cases ds with
      | nil => simp [persistChunks]
      | cons d ds =>
          show persistChunks url ps ds (insertIntoDB d.1 d.2 url pb.1 pb.2 store) =
            store ++ persistChunks url ps ds (insertIntoDB d.1 d.2 url pb.1 pb.2 [])
          rw [ih ds (insertIntoDB d.1 d.2 url pb.1 pb.2 store),
            ih ds (insertIntoDB d.1 d.2 url pb.1 pb.2 [])]
          unfold insertIntoDB
          simp [List.append_assoc]

theorem newIds_eq (url : List Char) (ps ds : List (List Char × List Char))
    (hlen : ds.length = ps.length) :
    newIds url ps ds = ds.map (fun d => mkId url d.1 d.2) := by
  induction ps generalizing ds with
  | nil =>
      cases ds with
      | nil => rfl
      | cons d ds => exact absurd hlen (by simp)
  | cons pb ps ih =>
      cases ds with
      | nil => exact absurd hlen (by simp)
      | cons d ds =>
          unfold newIds
          show (persistChunks url ps ds (insertIntoDB d.1 d.2 url pb.1 pb.2 [])).map
              (fun e => e.id) = _
          rw [persist_append]
          unfold insertIntoDB
          rw [List.nil_append, List.map_append]
          have hlen2 : ds.length = ps.length := by
            simpa using hlen
          rw [← newIds, ih ds hlen2]
          rfl

theorem countUrl_append (a b : List DbEntry) (u : List Char) :
    countUrl (a ++ b) u = countUrl a u + countUrl b u := by
  unfold countUrl
  rw [List.filter_append, List.length_append]

theorem countUrl_persist (url : List Char) (ps ds : List (List Char × List Char))
    (store : List DbEntry) (hlen : ds.length = ps.length) :
    countUrl (persistChunks url ps ds store) url = countUrl store url + ps.length := by
  induction ps generalizing ds store with
  | nil =>
      cases ds with
      | nil => simp [persistChunks]
      | cons d ds => exact absurd hlen (by simp)
  | cons pb ps ih =>
      cases ds with
      | nil => exact absurd hlen (by simp)
      | cons d ds =>
          show countUrl (persistChunks url ps ds (insertIntoDB d.1 d.2 url pb.1 pb.2 store))
              url = countUrl store url + (pb :: ps).length
          rw [ih ds _ (by simpa using hlen)]
          unfold insertIntoDB
          rw [countUrl_append]
          have h1 : countUrl [⟨mkId url d.1 d.2, url, pb.1, pb.2⟩] url = 1 := by
            unfold countUrl
            rw [List.filter_cons, if_pos (by simp)]
            rfl
          rw [h1, List.length_cons]
          omega

/-- C9: every entry persisted by `insertIntoDB` receives a freshly built
identifier composed of the url, a timestamp and a random suffix, and is
appended, never overwriting an existing entry; hence, assuming distinct
timestamp/random draws, persisting the same chunk payloads twice (a
re-ingest of the same URL) yields two disjoint sets of entry identifiers,
adds the payload count each time (doubling the entry count for that URL
over the two runs), and preserves all previously stored entries. -/
theorem c9_reingest_accumulates (url : List Char) (ps : List (List Char × List Char))
    (ds1 ds2 : List (List Char × List Char)) (store0 : List DbEntry)
    (hlen1 : ds1.length = ps.length) (hlen2 : ds2.length = ps.length)
    (hdf1 : ∀ d ∈ ds1, dashFree d.1) (hdf2 : ∀ d ∈ ds2, dashFree d.1)
    (hne : ∀ d1 ∈ ds1, ∀ d2 ∈ ds2, d1 ≠ d2) :
    (∀ i ∈ newIds url ps ds1, i ∉ newIds url ps ds2) ∧
    countUrl (persistChunks url ps ds1 store0) url = countUrl store0 url + ps.length ∧
    countUrl (persistChunks url ps ds2 (persistChunks url ps ds1 store0)) url =
      countUrl store0 url + 2 * ps.length ∧
    (∃ added, persistChunks url ps ds2 (persistChunks url ps ds1 store0) =
      store0 ++ added) := by
  refine ⟨?_, ?_, ?_, ?_⟩
  · intro i hi1 hi2
    rw [newIds_eq url ps ds1 hlen1] at hi1
    rw [newIds_eq url ps ds2 hlen2] at hi2
    obtain ⟨d1, hd1, hid1⟩ := List.mem_map.mp hi1
    obtain ⟨d2, hd2, hid2⟩ := List.mem_map.mp hi2
    have he : mkId url d1.1 d1.2 = mkId url d2.1 d2.2 := by rw [hid1, hid2]
    obtain ⟨ht, hr⟩ := mkId_inj (hdf1 d1 hd1) (hdf2 d2 hd2) he
    exact hne d1 hd1 d2 hd2 (Prod.ext ht hr)
  · exact countUrl_persist url ps ds1 store0 hlen1
  · rw [countUrl_persist url ps ds2 _ hlen2, countUrl_persist url ps ds1 store0 hlen1]
    omega
  · rw [persist_append url ps ds2, persist_append url ps ds1]
    exact ⟨persistChunks url ps ds1 [] ++ persistChunks url ps ds2 [],
      by rw [List.append_assoc]⟩

/-- C9 witness: one payload, draws `("1","x")` and `("2","y")`, empty
initial store — the two generated id sets are disjoint and the count for
the url goes from 0 to 2. -/
theorem c9_reingest_accumulates_witness :
    (∀ i ∈ newIds ['u'] [(['h'], ['b'])] [(['1'], ['x'])],
      i ∉ newIds ['u'] [(['h'], ['b'])] [(['2'], ['y'])]) ∧
    countUrl (persistChunks ['u'] [(['h'], ['b'])] [(['1'], ['x'])] []) ['u'] =
      countUrl [] ['u'] + [(['h'], ['b'])].length ∧
    countUrl (persistChunks ['u'] [(['h'], ['b'])] [(['2'], ['y'])]
        (persistChunks ['u'] [(['h'], ['b'])] [(['1'], ['x'])] [])) ['u'] =
      countUrl [] ['u'] + 2 * [(['h'], ['b'])].length ∧
    (∃ added, persistChunks ['u'] [(['h'], ['b'])] [(['2'], ['y'])]
        (persistChunks ['u'] [(['h'], ['b'])] [(['1'], ['x'])] []) = [] ++ added) :=
  c9_reingest_accumulates ['u'] [(['h'], ['b'])] [(['1'], ['x'])] [(['2'], ['y'])] []
    (by decide) (by decide) (by decide) (by decide) (by decide)

/-- Extracted page content handed to the ingestion pipeline: the
serialized head string and the cleaned body text. -/
structure PageData where
  headStr : List Char
  body : List Char

/-- State of the ingestion orchestrator: the process-lifetime Visited-Set,
the log of extractions performed (one url per extraction), and the
persisted payloads (url, metadata head, metadata body). -/
structure OrchSt where
  visited : List (List Char)
  extracted : List (List Char)
  stored : List (List Char × List Char × List Char)
deriving DecidableEq, Repr

/-- Modelled from the spec: the Visited-Set ingestion orchestrator.  The
repository code holding the Visited-Set is the near-duplicate second
draft that is absent from src/ (the `ingest` in src/index.ts has no
Visited-Set); per the spec, if `url` is already in the Visited-Set the
call returns immediately as a no-op; otherwise the url is marked visited
before extraction, a failing extraction leaves only the mark, and a
successful one chunks the serialized head and the body with `chunkText`
(limit 1000 as in `ingest`) and persists head chunks as `(url, chunk, "")`
and body chunks as `(url, headString, chunk)`. -/
def ingestStep (ext : List Char → Option PageData) (st : OrchSt) (u : List Char) : OrchSt :=
  if u ∈ st.visited then st
  else
    match ext u with
    | none => ⟨u :: st.visited, st.extracted ++ [u], st.stored⟩
    | some pg =>
        ⟨u :: st.visited, st.extracted ++ [u],
          st.stored ++ (chunkText pg.headStr 1000).map (fun c => (u, c, []))
            ++ (chunkText pg.body 1000).map (fun c => (u, pg.headStr, c))⟩

theorem mem_visited_ingestStep (ext : List Char → Option PageData) (st : OrchSt)
    (u : List Char) : u ∈ (ingestStep ext st u).visited := by
  unfold ingestStep
  by_cases hv : u ∈ st.visited
  · rw [if_pos hv]
    exact hv
  · rw [if_neg hv]
    cases hext : ext u with
    | none => exact List.mem_cons_self u _
    | some pg => exact List.mem_cons_self u _

/-- C1: calling the (spec-modelled) `ingest` twice with the same URL
performs extraction at most once: the second call finds the url in the
Visited-Set and is a no-op (the state is unchanged, so the extractor is
not called again and nothing more is persisted); starting from a fresh
process (empty Visited-Set), the extraction log contains the url at most
once after the two calls. -/
theorem c1_ingest_at_most_once (ext : List Char → Option PageData)
    (st : OrchSt) (u : List Char) :
    ingestStep ext (ingestStep ext st u) u = ingestStep ext st u ∧
    List.count u (ingestStep ext (ingestStep ext ⟨[], [], []⟩ u) u).extracted ≤ 1 := by
  have hidem : ∀ st2 : OrchSt,
      ingestStep ext (ingestStep ext st2 u) u = ingestStep ext st2 u := by
    intro st2
    conv_lhs => rw [ingestStep]
    rw [if_pos (mem_visited_ingestStep ext st2 u)]
  refine ⟨hidem st, ?_⟩
  rw [hidem ⟨[], [], []⟩]
  have h0 : (ingestStep ext ⟨[], [], []⟩ u).extracted = [u] := by
    unfold ingestStep
    rw [if_neg (List.not_mem_nil u)]
    cases hext : ext u with
    | none => rfl
    | some pg => rfl
  rw [h0]
  simp
